import Mathlib

/-!
Shallow embedding of `src.ts/abi/coders/abstract-coder.ts` from ethers.js:
the `Result` container (positional/named access with deferred decode
errors), the word-aligned `Writer` and `Reader` buffer primitives, and the
`checkResultErrors` diagnostic sweep.  Bytes are modelled as `Nat` lists,
numeric values as `Nat`, JavaScript `Error` objects as an inductive with a
message and an optional attached `error` property, and thrown exceptions as
`Except`.
-/

/-- `WordSize` constant (32 bytes). -/
def WordSize : Nat := 32

/-- Model of a JavaScript `Error`: a message plus the optional `error`
property that `throwError` attaches (the cause). -/
inductive JsError where
  | mk (message : String) (errProp : Option JsError)

/-- Decidable equality for the error model, by structural recursion. -/
def JsError.deq : (a b : JsError) → Decidable (a = b)
  | .mk m1 none, .mk m2 none =>
    match decEq m1 m2 with
    | isTrue h => isTrue (by rw [h])
    | isFalse h => isFalse (by intro hh; injection hh with h1 h2; exact h h1)
  | .mk _ none, .mk _ (some _) =>
    isFalse (by intro hh; injection hh with h1 h2; exact Option.noConfusion h2)
  | .mk _ (some _), .mk _ none =>
    isFalse (by intro hh; injection hh with h1 h2; exact Option.noConfusion h2)
  | .mk m1 (some x), .mk m2 (some y) =>
    match decEq m1 m2, JsError.deq x y with
    | isTrue h1, isTrue h2 => isTrue (by rw [h1, h2])
    | isFalse h1, _ => isFalse (by intro hh; injection hh with ha hb; exact h1 ha)
    | _, isFalse h2 => isFalse (by
        intro hh; injection hh with ha hb; injection hb with hc; exact h2 hc)

instance : DecidableEq JsError := JsError.deq

instance {ε α : Type} [DecidableEq ε] [DecidableEq α] : DecidableEq (Except ε α) :=
  fun a b =>
    match a, b with
    | .ok x, .ok y =>
      match decEq x y with
      | isTrue h => isTrue (by rw [h])
      | isFalse h => isFalse (by intro hh; injection hh with h1; exact h h1)
    | .error x, .error y =>
      match decEq x y with
      | isTrue h => isTrue (by rw [h])
      | isFalse h => isFalse (by intro hh; injection hh with h1; exact h h1)
    | .ok _, .error _ => isFalse (fun h => Except.noConfusion h)
    | .error _, .ok _ => isFalse (fun h => Except.noConfusion h)

/-- The `message` field of an error. -/
def JsError.message : JsError → String
  | .mk m _ => m

/-- The attached `error` property (the cause), possibly absent. -/
def JsError.errProp : JsError → Option JsError
  | .mk _ e => e

/-- `throwError(name, error)`: builds the wrapped error
`new Error("deferred error during ABI decoding triggered accessing " + name)`
with `wrapped.error = error`.  The attached property is optional because
`getValue` forwards `value.error`, which may be absent. -/
def throwErrorE (name : String) (e : Option JsError) : JsError :=
  .mk ("deferred error during ABI decoding triggered accessing " ++ name) e

mutual
/-- A slot value of a `Result`: a plain (atomic) decoded value, a captured
decode error (deferred), or a nested `Result`. -/
inductive RValue where
  | atom (n : Nat)
  | err (e : JsError)
  | nested (r : ResultR)

/-- The `Result` state: the slot array, the (deduplicated) `#names` array,
and whether this instance was built through the `_guard` path (frozen and
proxied, `wrap = true`) or as a plain array (`wrap = false`). -/
inductive ResultR where
  | mk (items : List RValue) (names : List (Option String)) (wrapped : Bool)
end

/-- The slot array of a `Result`. -/
def ResultR.items : ResultR → List RValue
  | .mk its _ _ => its

/-- The `#names` array of a `Result`. -/
def ResultR.names : ResultR → List (Option String)
  | .mk _ ns _ => ns

/-- Whether the `Result` is the frozen/proxied (wrapped) form. -/
def ResultR.wrapped : ResultR → Bool
  | .mk _ _ w => w

mutual
/-- Decidable equality for slot values. -/
def RValue.deq : (a b : RValue) → Decidable (a = b)
  | .atom n, .atom m =>
    match decEq n m with
    | isTrue h => isTrue (by rw [h])
    | isFalse h => isFalse (by intro hh; injection hh with h1; exact h h1)
  | .atom _, .err _ => isFalse (fun h => RValue.noConfusion h)
  | .atom _, .nested _ => isFalse (fun h => RValue.noConfusion h)
  | .err _, .atom _ => isFalse (fun h => RValue.noConfusion h)
  | .err e1, .err e2 =>
    match decEq e1 e2 with
    | isTrue h => isTrue (by rw [h])
    | isFalse h => isFalse (by intro hh; injection hh with h1; exact h h1)
  | .err _, .nested _ => isFalse (fun h => RValue.noConfusion h)
  | .nested _, .atom _ => isFalse (fun h => RValue.noConfusion h)
  | .nested _, .err _ => isFalse (fun h => RValue.noConfusion h)
  | .nested r1, .nested r2 =>
    match ResultR.deq r1 r2 with
    | isTrue h => isTrue (by rw [h])
    | isFalse h => isFalse (by intro hh; injection hh with h1; exact h h1)

/-- Decidable equality for lists of slot values. -/
def RValueList.deq : (a b : List RValue) → Decidable (a = b)
  | [], [] => isTrue rfl
  | [], _ :: _ => isFalse (fun h => List.noConfusion h)
  | _ :: _, [] => isFalse (fun h => List.noConfusion h)
  | x :: xs, y :: ys =>
    match RValue.deq x y, RValueList.deq xs ys with
    | isTrue h1, isTrue h2 => isTrue (by rw [h1, h2])
    | isFalse h1, _ => isFalse (by intro hh; injection hh with ha hb; exact h1 ha)
    | _, isFalse h2 => isFalse (by intro hh; injection hh with ha hb; exact h2 hb)

/-- Decidable equality for `Result` states. -/
def ResultR.deq : (a b : ResultR) → Decidable (a = b)
  | .mk i1 n1 w1, .mk i2 n2 w2 =>
    match RValueList.deq i1 i2, decEq n1 n2, decEq w1 w2 with
    | isTrue h1, isTrue h2, isTrue h3 => isTrue (by rw [h1, h2, h3])
    | isFalse h1, _, _ =>
      isFalse (by intro hh; injection hh with ha hb hc; exact h1 ha)
    | _, isFalse h2, _ =>
      isFalse (by intro hh; injection hh with ha hb hc; exact h2 hb)
    | _, _, isFalse h3 =>
      isFalse (by intro hh; injection hh with ha hb hc; exact h3 hc)
end

instance : DecidableEq RValue := RValue.deq

instance : DecidableEq ResultR := ResultR.deq

/-- Number of occurrences of the string `s` among the requested `names`
(the `nameCounts` map of the constructor). -/
def nameCount (keys : List (Option String)) (s : String) : Nat :=
  keys.countP (fun k => k == some s)

/-- The constructor's `#names` computation: for each item index, keep the
requested name only when it is non-null and unique (`nameCounts.get(name)
=== 1`); otherwise store `null`. -/
def resultNames (numItems : Nat) (keys : List (Option String)) : List (Option String) :=
  (List.range numItems).map (fun i =>
    match keys.getD i none with
    | some s => if nameCount keys s = 1 then some s else none
    | none => none)

/-- `Result.fromItems(items, keys)`: builds the wrapped (frozen, proxied)
`Result`. -/
def ResultR.fromItems (items : List RValue) (keys : List (Option String)) : ResultR :=
  .mk items (resultNames items.length keys) true

/-- The proxy `get` trap for a numeric property on a wrapped `Result`
(lines 95-106): bounds-check, then raise the deferred error through
`throwError` if the slot holds a captured error, else return the item. -/
def proxyIndexGet (r : ResultR) (i : Nat) : Except JsError RValue :=
  if h : i < r.items.length then
    match r.items.get ⟨i, h⟩ with
    | .err e => .error (throwErrorE ("index " ++ toString i) (some e))
    | item => .ok item
  else
    .error (.mk "out of result range" none)

/-- `Result.getValue(name)`: find the first index of `name` in `#names`;
`undefined` (here `none`) when absent; if the slot holds a captured error,
raise it through `throwError`, forwarding the captured error's own `error`
property; else return the value. -/
def ResultR.getValue (r : ResultR) (name : String) : Except JsError (Option RValue) :=
  match r.names.findIdx? (fun n => n == some name) with
  | none => .ok none
  | some idx =>
    match r.items.getD idx (.atom 0) with
    | .err e => .error (throwErrorE ("property \"" ++ name ++ "\"") e.errProp)
    | item => .ok (some item)

/-- The `forEach` scan of `toArray`: the index of the first slot holding a
captured error, together with that error, if any. -/
def firstErrorFrom (k : Nat) : List RValue → Option (Nat × JsError)
  | [] => none
  | .err e :: _ => some (k, e)
  | _ :: rest => firstErrorFrom (k + 1) rest

/-- `Result.toArray()`: scans every slot, raising (through `throwError`)
on the first captured error; otherwise returns `Array.of(this)`, i.e. the
one-element array holding the `Result` itself. -/
def ResultR.toArray (r : ResultR) : Except JsError (List RValue) :=
  match firstErrorFrom 0 r.items with
  | some (k, e) => .error (throwErrorE ("index " ++ toString k) (some e))
  | none => .ok [RValue.nested r]

/-- `Result.slice(start, end)` (for an in-range request `stop ≤ length`):
copies the sub-range of items and of `#names` and rebuilds through the
`_guard` constructor path, so the returned `Result` is again wrapped. -/
def ResultR.slice (r : ResultR) (start stop : Nat) : ResultR :=
  .mk ((r.items.drop start).take (stop - start))
      ((r.names.drop start).take (stop - start)) true

/-- The scanning loop of `Result.filter`: at each index, first raise any
captured error through `throwError`, then test the callback and keep the
item and its name on success. -/
def filterGo (p : RValue → Nat → Bool) :
    List RValue → List (Option String) → Nat →
    Except JsError (List RValue × List (Option String))
  | [], _, _ => .ok ([], [])
  | item :: rest, names, i =>
    match item with
    | .err e => .error (throwErrorE ("index " ++ toString i) (some e))
    | it =>
      match filterGo p rest names i.succ with
      | .error e => .error e
      | .ok (its, nms) =>
        if p it i then .ok (it :: its, (names.getD i none) :: nms)
        else .ok (its, nms)

/-- `Result.filter(callback)`: eagerly raises deferred errors during the
scan; on success rebuilds through the `_guard` path (wrapped). -/
def ResultR.filter (r : ResultR) (p : RValue → Nat → Bool) :
    Except JsError ResultR :=
  match filterGo p r.items r.names 0 with
  | .error e => .error e
  | .ok (its, nms) => .ok (.mk its nms true)

/-- One collected entry of `checkResultErrors`: the path (JavaScript
`for..in` keys are index strings) and the caught error. -/
def REntry : Type := List String × JsError

instance : DecidableEq REntry :=
  inferInstanceAs (DecidableEq (List String × JsError))

mutual
/-- The `for..in` loop of `checkErrors` over the indices of a `Result` (or
plain array): `k` is the current index, `wrapped` tells whether property
access goes through the deferring proxy.  On a wrapped `Result`, accessing
a captured-error slot throws the `throwError` wrapper, which the `try`
catches and records with the child path; any other access returns the slot
value, which is then visited recursively. -/
def checkList (path : List String) (k : Nat) (wrapped : Bool) :
    List RValue → List REntry
  | [] => []
  | item :: rest =>
    (match wrapped, item with
     | true, .err e =>
       [((path ++ [toString k]), throwErrorE ("index " ++ toString k) (some e))]
     | _, it => checkVal (path ++ [toString k]) it)
    ++ checkList path (k + 1) wrapped rest

/-- `checkErrors(path, object)` on one value: non-arrays (atoms and bare
`Error` objects obtained from a raw `Result`) contribute nothing; a nested
`Result` is walked. -/
def checkVal (path : List String) : RValue → List REntry
  | .nested (.mk items _ w) => checkList path 0 w items
  | _ => []
end

/-- `checkResultErrors(result)`: the recursive sweep starting from the
empty path; never throws (total), returning the collected entries. -/
def checkResultErrors (r : ResultR) : List REntry :=
  checkList [] 0 r.wrapped r.items

mutual
/-- Number of slots, recursively, whose access through the container
raises: on a wrapped `Result` every captured-error slot raises; error
objects held by a raw `Result` are returned, not raised. -/
def raiseCountList (wrapped : Bool) : List RValue → Nat
  | [] => 0
  | item :: rest =>
    (match wrapped, item with
     | true, .err _ => 1
     | _, it => raiseCountVal it)
    + raiseCountList wrapped rest

/-- Raising-slot count of one value. -/
def raiseCountVal : RValue → Nat
  | .nested (.mk items _ w) => raiseCountList w items
  | _ => 0
end

/-- Raising-slot count of a `Result`. -/
def raiseCount (r : ResultR) : Nat :=
  raiseCountList r.wrapped r.items

/-- The payload of an ethers `assert` failure: message, error code, and the
`buffer` / `length` / `offset` info of a `BUFFER_OVERRUN`. -/
structure CodedError where
  message : String
  code : String
  buffer : List Nat
  length : Nat
  offset : Nat
deriving DecidableEq

/-- Structural worker for `toBeArray`: peels base-256 digits while fuel
lasts (the fuel is only a termination device; `toBeArray` always supplies
enough). -/
def toBeArrayGo : Nat → Nat → List Nat
  | 0, _ => []
  | fuel + 1, v => if v = 0 then [] else toBeArrayGo fuel (v / 256) ++ [v % 256]

/-- `toBeArray(value)`: the minimal big-endian byte representation of a
non-negative integer (`0` gives the empty array). -/
def toBeArray (v : Nat) : List Nat :=
  toBeArrayGo v v

theorem toBeArrayGo_spec : ∀ v fuel, v ≤ fuel → toBeArrayGo fuel v = toBeArrayGo v v := by
  intro v
  induction v using Nat.strong_induction_on with
  | _ v ih =>
    intro fuel hf
    by_cases h0 : v = 0
    · subst h0
      cases fuel <;> simp [toBeArrayGo]
    · obtain ⟨f, rfl⟩ : ∃ f, fuel = f + 1 := ⟨fuel - 1, by omega⟩
      obtain ⟨k, rfl⟩ : ∃ k, v = k + 1 := ⟨v - 1, by omega⟩
      show toBeArrayGo f ((k + 1) / 256) ++ [(k + 1) % 256]
          = toBeArrayGo k ((k + 1) / 256) ++ [(k + 1) % 256]
      have hlt : (k + 1) / 256 < k + 1 := Nat.div_lt_self (by omega) (by omega)
      rw [ih _ hlt f (by omega), ih _ hlt k (by omega)]

/-- Module-level `getValue(value)`: big-endian bytes of the value,
left-padded with zero bytes to exactly one word; `BUFFER_OVERRUN` if the
natural representation exceeds one word. -/
def getValue (v : Nat) : Except CodedError (List Nat) :=
  let bytes := toBeArray v
  if bytes.length > WordSize then
    .error ⟨"value out-of-bounds", "BUFFER_OVERRUN", bytes, WordSize, bytes.length⟩
  else if bytes.length ≠ WordSize then
    .ok (List.replicate (WordSize - bytes.length % WordSize) 0 ++ bytes)
  else
    .ok bytes

/-- `toBigInt` on a byte array: big-endian unsigned interpretation. -/
def toBigInt (bytes : List Nat) : Nat :=
  bytes.foldl (fun acc b => acc * 256 + b) 0

/-- `Writer` state: the chunk list `#data` and the running `#dataLength`. -/
structure WriterS where
  data : List (List Nat)
  dataLength : Nat
deriving DecidableEq

/-- A fresh `new Writer()`. -/
def WriterS.empty : WriterS := ⟨[], 0⟩

/-- The materialized buffer: concatenation of all chunks in append order. -/
def WriterS.bytes (w : WriterS) : List Nat := w.data.join

/-- `#writeData(data)`: push the chunk, bump `#dataLength`, return the
chunk length. -/
def writeData (w : WriterS) (bs : List Nat) : WriterS × Nat :=
  (⟨w.data ++ [bs], w.dataLength + bs.length⟩, bs.length)

/-- `appendWriter(writer)`: append the other writer's materialized bytes
as one chunk. -/
def WriterS.appendWriter (w other : WriterS) : WriterS × Nat :=
  writeData w other.bytes

/-- `writeBytes(value)`: right-pad with zero bytes to the next word
boundary (no padding when already aligned), then append. -/
def WriterS.writeBytes (w : WriterS) (value : List Nat) : WriterS × Nat :=
  let paddingOffset := value.length % WordSize
  let bytes :=
    if paddingOffset ≠ 0 then value ++ List.replicate (WordSize - paddingOffset) 0
    else value
  writeData w bytes

/-- `writeValue(value)`: append the one-word left-padded representation;
raises `BUFFER_OVERRUN` (via `getValue`) when the value needs more than
one word. -/
def WriterS.writeValue (w : WriterS) (v : Nat) : Except CodedError (WriterS × Nat) :=
  match getValue v with
  | .error e => .error e
  | .ok bs => .ok (writeData w bs)

/-- `writeUpdatableValue()` up to returning the callback: push one
zero-filled word, bump the length by a word, and remember the chunk index
(`offset = #data.length` before the push). -/
def WriterS.writeUpdatable (w : WriterS) : WriterS × Nat :=
  (⟨w.data ++ [List.replicate WordSize 0], w.dataLength + WordSize⟩, w.data.length)

/-- The callback returned by `writeUpdatableValue`, invoked later with a
value: `this.#data[offset] = getValue(value)`.  The right-hand side is
evaluated first, so when `getValue` throws the exception propagates and
the writer is left as it was. -/
def WriterS.patch (w : WriterS) (slot : Nat) (v : Nat) :
    Except CodedError Unit × WriterS :=
  match getValue v with
  | .error e => (.error e, w)
  | .ok bs => (.ok (), ⟨w.data.set slot bs, w.dataLength⟩)

/-- `Reader` state: backing buffer, the `allowLoose` flag fixed at
construction, and the cursor `#offset`. -/
structure ReaderS where
  data : List Nat
  allowLoose : Bool
  offset : Nat
deriving DecidableEq

/-- `Math.ceil(length / WordSize) * WordSize`. -/
def ceilWord (n : Nat) : Nat :=
  ((n + (WordSize - 1)) / WordSize) * WordSize

/-- `#peekBytes(0, length, loose)`: compute the aligned length; when the
aligned read overruns the buffer, relax to the unaligned length exactly
when the reader allows loose reads, this call asked for loose, and the
unaligned length still fits; otherwise raise `BUFFER_OVERRUN` carrying the
buffer, its length, and the aligned end offset. -/
def ReaderS.peekBytes (r : ReaderS) (len : Nat) (loose : Bool) :
    Except CodedError (List Nat) :=
  let alignedLength := ceilWord len
  if r.offset + alignedLength > r.data.length then
    if r.allowLoose && loose && decide (r.offset + len ≤ r.data.length) then
      .ok ((r.data.drop r.offset).take len)
    else
      .error ⟨"data out-of-bounds", "BUFFER_OVERRUN", r.data, r.data.length,
              r.offset + alignedLength⟩
  else
    .ok ((r.data.drop r.offset).take alignedLength)

/-- `readBytes(length, loose)`: peek, advance the cursor by the bytes
actually consumed, and truncate the return to the unaligned length. -/
def ReaderS.readBytes (r : ReaderS) (len : Nat) (loose : Bool) :
    Except CodedError (List Nat × ReaderS) :=
  match r.peekBytes len loose with
  | .error e => .error e
  | .ok bs => .ok (bs.take len, ⟨r.data, r.allowLoose, r.offset + bs.length⟩)

/-- `readValue()`: read one word (strict) and interpret it big-endian. -/
def ReaderS.readValue (r : ReaderS) : Except CodedError (Nat × ReaderS) :=
  match r.readBytes WordSize false with
  | .error e => .error e
  | .ok (bs, r2) => .ok (toBigInt bs, r2)

/-- One client-visible mutation of a `Writer`: the four write operations
plus a later invocation of a `writeUpdatableValue` callback (`opPatch`,
identified by the reserved chunk index the callback captured). -/
inductive WOp where
  | opWriteBytes (bs : List Nat)
  | opWriteValue (v : Nat)
  | opAppend (bs : List Nat)
  | opReserve
  | opPatch (slot : Nat) (v : Nat)
deriving DecidableEq

/-- The writer state after one operation (a throwing `writeValue` or
`patch` leaves the state unchanged). -/
def stepW (w : WriterS) : WOp → WriterS
  | .opWriteBytes bs => (w.writeBytes bs).1
  | .opWriteValue v =>
    match w.writeValue v with
    | .ok p => p.1
    | .error _ => w
  | .opAppend bs => (writeData w bs).1
  | .opReserve => w.writeUpdatable.1
  | .opPatch slot v => (w.patch slot v).2

/-- The set of chunk indices captured by `writeUpdatableValue` callbacks,
after one operation. -/
def reservedAfter (w : WriterS) (res : List Nat) : WOp → List Nat
  | .opReserve => res ++ [w.data.length]
  | _ => res

/-- A well-formed continuation from state `w` with reserved slots `res`:
every `patch` call targets a slot actually handed out by an earlier
`writeUpdatableValue`, and every written numeric value fits one word. -/
def wfFrom (w : WriterS) (res : List Nat) : List WOp → Bool
  | [] => true
  | op :: ops =>
    (match op with
     | .opWriteValue v => decide ((toBeArray v).length ≤ WordSize)
     | .opPatch slot v =>
       decide (slot ∈ res) && decide ((toBeArray v).length ≤ WordSize)
     | _ => true)
    && wfFrom (stepW w op) (reservedAfter w res op) ops

/-- Run a sequence of writer operations from a state. -/
def runW (w : WriterS) : List WOp → WriterS
  | [] => w
  | op :: ops => runW (stepW w op) ops

theorem ceilWord_eq (n : Nat) :
    ceilWord n = if n % WordSize = 0 then n else n + (WordSize - n % WordSize) := by
  unfold ceilWord WordSize
  split <;> omega

theorem getValue_ok_of_fits (v : Nat) (h : (toBeArray v).length ≤ WordSize) :
    ∃ bs, getValue v = .ok bs ∧ bs.length = WordSize := by
  simp only [getValue]
  rcases Nat.lt_or_ge (toBeArray v).length WordSize with hlt | hge
  · rw [if_neg (Nat.not_lt.mpr h), if_pos (Nat.ne_of_lt hlt)]
    refine ⟨_, rfl, ?_⟩
    simp only [List.length_append, List.length_replicate,
      Nat.mod_eq_of_lt hlt]
    unfold WordSize at hlt ⊢
    omega
  · have heq : (toBeArray v).length = WordSize := Nat.le_antisymm h hge
    rw [if_neg (Nat.not_lt.mpr h), if_neg (fun hc => hc heq)]
    exact ⟨_, rfl, heq⟩

/-- C1: evaluating `toArray()` on the error-free wrapped Result built from
items `[10, 20]`: the scan raises nothing, but the method returns
`Array.of(this)`, the one-element array holding the Result itself, not the
two-element snapshot of the slots the claim (and the method's own doc
comment) describe. -/
theorem toArray_returns_singleton_self :
    (ResultR.fromItems [.atom 10, .atom 20] []).toArray
        = .ok [RValue.nested (ResultR.fromItems [.atom 10, .atom 20] [])]
      ∧ (ResultR.fromItems [.atom 10, .atom 20] []).toArray
        ≠ .ok [RValue.atom 10, RValue.atom 20] := by
  exact ⟨rfl, by decide⟩

/-- C2 counterexample: on the wrapped Result holding the captured error
`boom` (which has no attached `error` of its own) under name `x`,
`getValue("x")` raises a wrapper whose attached cause is absent (`none`),
not the captured error itself — refuting the claim that both access paths
attach the original captured error as the cause. -/
theorem getValue_cause_counterexample :
    (ResultR.fromItems [RValue.err (JsError.mk "boom" none)] [some "x"]).getValue "x"
        = .error (throwErrorE "property \"x\"" none)
      ∧ throwErrorE "property \"x\"" none
        ≠ throwErrorE "property \"x\"" (some (JsError.mk "boom" none)) := by
  exact ⟨rfl, by decide⟩

/-- C2 (amended): accessing a captured-error slot raises a wrapper whose
message identifies the access; the positional path attaches the captured
error itself as the cause, while the `getValue` path attaches the captured
error's own `error` property (its inner cause) instead. -/
theorem deferred_access_error_wrapping (r : ResultR) (i : Nat) (name : String)
    (e : JsError) :
    (∀ h : i < r.items.length, r.items.get ⟨i, h⟩ = .err e →
      proxyIndexGet r i = .error (throwErrorE ("index " ++ toString i) (some e)))
    ∧ (∀ idx, r.names.findIdx? (fun n => n == some name) = some idx →
        r.items.getD idx (.atom 0) = .err e →
        r.getValue name
          = .error (throwErrorE ("property \"" ++ name ++ "\"") e.errProp)) := by
  constructor
  · intro h he
    simp only [proxyIndexGet, dif_pos h, he]
  · intro idx hidx he
    simp only [ResultR.getValue, hidx, he]

/-- Witness for C2 (amended) at a concrete Result: captured error `boom`
with inner cause `inner`, stored under name `x` at index 0. -/
theorem deferred_access_error_wrapping_witness :
    proxyIndexGet
        (ResultR.fromItems [RValue.err (JsError.mk "boom" (some (JsError.mk "inner" none)))] [some "x"]) 0
      = .error (throwErrorE "index 0"
          (some (JsError.mk "boom" (some (JsError.mk "inner" none)))))
    ∧ (ResultR.fromItems [RValue.err (JsError.mk "boom" (some (JsError.mk "inner" none)))] [some "x"]).getValue "x"
      = .error (throwErrorE "property \"x\"" (some (JsError.mk "inner" none))) := by
  refine ⟨?_, ?_⟩
  · exact (deferred_access_error_wrapping
      (ResultR.fromItems [RValue.err (JsError.mk "boom" (some (JsError.mk "inner" none)))] [some "x"])
      0 "x" (JsError.mk "boom" (some (JsError.mk "inner" none)))).1 (by decide) (by decide)
  · exact (deferred_access_error_wrapping
      (ResultR.fromItems [RValue.err (JsError.mk "boom" (some (JsError.mk "inner" none)))] [some "x"])
      0 "x" (JsError.mk "boom" (some (JsError.mk "inner" none)))).2 0 (by decide) (by decide)

/-- C5: `writeBytes` appends the input right-padded with zero bytes to the
next word boundary, advancing the total length by exactly
`ceil(n/32)*32` and returning that count; `writeValue` on a value fitting
one word advances the total length by exactly 32 and returns 32. -/
theorem write_ops_lengths (w : WriterS) (bs : List Nat) (v : Nat)
    (h : (toBeArray v).length ≤ WordSize) :
    ((w.writeBytes bs).1.dataLength = w.dataLength + ceilWord bs.length
      ∧ (w.writeBytes bs).2 = ceilWord bs.length
      ∧ (w.writeBytes bs).1.data
          = w.data ++ [bs ++ List.replicate (ceilWord bs.length - bs.length) 0])
    ∧ ∃ w2, w.writeValue v = .ok (w2, WordSize)
        ∧ w2.dataLength = w.dataLength + WordSize := by
  constructor
  · by_cases h0 : bs.length % WordSize = 0
    · have hcw : ceilWord bs.length = bs.length := by rw [ceilWord_eq, if_pos h0]
      simp only [WriterS.writeBytes, writeData, ne_eq]
      rw [if_neg (fun hc => hc h0), hcw]
      refine ⟨rfl, rfl, ?_⟩
      rw [Nat.sub_self]
      simp
    · have hcw : ceilWord bs.length = bs.length + (WordSize - bs.length % WordSize) := by
        rw [ceilWord_eq, if_neg h0]
      simp only [WriterS.writeBytes, writeData, ne_eq]
      rw [if_pos h0]
      have hsub : ceilWord bs.length - bs.length = WordSize - bs.length % WordSize := by
        rw [hcw]; omega
      refine ⟨?_, ?_, ?_⟩
      · simp only [List.length_append, List.length_replicate, hcw, Nat.add_assoc]
      · simp only [List.length_append, List.length_replicate, hcw]
      · rw [hsub]
  · obtain ⟨word, hgv, hlen⟩ := getValue_ok_of_fits v h
    refine ⟨(writeData w word).1, ?_, ?_⟩
    · simp only [WriterS.writeValue, hgv, writeData]
      simp [hlen]
    · simp [writeData, hlen]

/-- Witness for C5 at the empty writer with a 3-byte chunk and the value
7 (one word). -/
theorem write_ops_lengths_witness :
    ((WriterS.empty.writeBytes [1, 2, 3]).1.dataLength
        = WriterS.empty.dataLength + ceilWord 3
      ∧ (WriterS.empty.writeBytes [1, 2, 3]).2 = ceilWord 3
      ∧ (WriterS.empty.writeBytes [1, 2, 3]).1.data
          = WriterS.empty.data ++ [[1, 2, 3] ++ List.replicate (ceilWord 3 - 3) 0])
    ∧ ∃ w2, WriterS.empty.writeValue 7 = .ok (w2, WordSize)
        ∧ w2.dataLength = WriterS.empty.dataLength + WordSize := by
  have := write_ops_lengths WriterS.empty [1, 2, 3] 7 (by decide)
  simpa using this

/-- C3: when the word-aligned read would overrun the buffer, `readBytes`
succeeds — consuming exactly the unaligned length and returning exactly
that many bytes — if and only if the reader allows loose reads, the call
passed `loose`, and the unaligned length fits; otherwise it raises
`BUFFER_OVERRUN` carrying the buffer, the buffer length, and the offset
`cursor + alignedLength`. -/
theorem readBytes_overrun_boundary (r : ReaderS) (len : Nat) (loose : Bool)
    (h : r.offset + ceilWord len > r.data.length) :
    ((r.allowLoose = true ∧ loose = true ∧ r.offset + len ≤ r.data.length) →
      r.readBytes len loose
          = .ok ((r.data.drop r.offset).take len,
                 ⟨r.data, r.allowLoose, r.offset + len⟩)
        ∧ ((r.data.drop r.offset).take len).length = len)
    ∧ (¬ (r.allowLoose = true ∧ loose = true ∧ r.offset + len ≤ r.data.length) →
      r.readBytes len loose
        = .error ⟨"data out-of-bounds", "BUFFER_OVERRUN", r.data, r.data.length,
                  r.offset + ceilWord len⟩) := by
  constructor
  · rintro ⟨h1, h2, h3⟩
    have hlen : ((r.data.drop r.offset).take len).length = len := by
      rw [List.length_take, List.length_drop]
      omega
    refine ⟨?_, hlen⟩
    simp only [ReaderS.readBytes, ReaderS.peekBytes]
    rw [if_pos h, if_pos (by simp [h1, h2, h3])]
    simp only [List.take_take, Nat.min_self, hlen]
  · intro hno
    simp only [ReaderS.readBytes, ReaderS.peekBytes]
    rw [if_pos h, if_neg ?_]
    intro hc
    simp only [Bool.and_eq_true, decide_eq_true_eq] at hc
    exact hno ⟨hc.1.1, hc.1.2, hc.2⟩

/-- Witness for C3: at the loose-mode boundary of the spec — a 3-byte
buffer, cursor 0, reading 3 bytes — the allow-loose reader succeeds and
the strict reader raises `BUFFER_OVERRUN` at offset 32. -/
theorem readBytes_overrun_boundary_witness :
    ((ReaderS.mk [1, 2, 3] true 0).readBytes 3 true
        = .ok ([1, 2, 3], ⟨[1, 2, 3], true, 3⟩)
      ∧ ([1, 2, 3] : List Nat).length = 3)
    ∧ (ReaderS.mk [1, 2, 3] false 0).readBytes 3 true
        = .error ⟨"data out-of-bounds", "BUFFER_OVERRUN", [1, 2, 3], 3, 32⟩ := by
  constructor
  · have := (readBytes_overrun_boundary (ReaderS.mk [1, 2, 3] true 0) 3 true
      (by simp [ceilWord, WordSize])).1 ⟨rfl, rfl, by simp⟩
    simpa using this
  · have := (readBytes_overrun_boundary (ReaderS.mk [1, 2, 3] false 0) 3 true
      (by simp [ceilWord, WordSize])).2 (by simp)
    simpa [ceilWord, WordSize] using this

theorem toBeArray_zero : toBeArray 0 = [] := rfl

theorem toBeArray_eq_nz (v : Nat) (h : v ≠ 0) :
    toBeArray v = toBeArray (v / 256) ++ [v % 256] := by
  obtain ⟨k, rfl⟩ : ∃ k, v = k + 1 := ⟨v - 1, by omega⟩
  show toBeArrayGo k ((k + 1) / 256) ++ [(k + 1) % 256]
      = toBeArray ((k + 1) / 256) ++ [(k + 1) % 256]
  have hlt : (k + 1) / 256 < k + 1 := Nat.div_lt_self (by omega) (by omega)
  rw [toBeArrayGo_spec _ k (by omega)]
  rfl

theorem foldl_toBeArray (v : Nat) : ∀ a : Nat,
    (toBeArray v).foldl (fun acc b => acc * 256 + b) a
      = a * 256 ^ (toBeArray v).length + v := by
  induction v using Nat.strong_induction_on with
  | _ v ih =>
    intro a
    by_cases h0 : v = 0
    · subst h0
      simp [toBeArray_zero]
    · have hlt : v / 256 < v := Nat.div_lt_self (Nat.pos_of_ne_zero h0) (by omega)
      rw [toBeArray_eq_nz v h0, List.foldl_append, List.foldl_cons, List.foldl_nil,
        ih (v / 256) hlt a, List.length_append, List.length_cons, List.length_nil]
      have hdm := Nat.div_add_mod v 256
      calc (a * 256 ^ (toBeArray (v / 256)).length + v / 256) * 256 + v % 256
          = a * (256 ^ (toBeArray (v / 256)).length * 256)
              + (256 * (v / 256) + v % 256) := by ring
        _ = a * 256 ^ ((toBeArray (v / 256)).length + (0 + 1)) + v := by
            rw [hdm, pow_succ]

theorem toBigInt_toBeArray (v : Nat) : toBigInt (toBeArray v) = v := by
  have := foldl_toBeArray v 0
  simpa [toBigInt] using this

theorem toBigInt_replicate_zero_append (k : Nat) (l : List Nat) :
    toBigInt (List.replicate k 0 ++ l) = toBigInt l := by
  unfold toBigInt
  rw [List.foldl_append]
  have : List.foldl (fun acc b => acc * 256 + b) 0 (List.replicate k 0) = 0 := by
    induction k with
    | zero => rfl
    | succ n ihn => simpa [List.replicate_succ] using ihn
  rw [this]

theorem getValue_toBigInt (v : Nat) (h : (toBeArray v).length ≤ WordSize) :
    ∃ bs, getValue v = .ok bs ∧ bs.length = WordSize ∧ toBigInt bs = v := by
  obtain ⟨bs, hok, hlen⟩ := getValue_ok_of_fits v h
  refine ⟨bs, hok, hlen, ?_⟩
  simp only [getValue] at hok
  rcases Nat.lt_or_ge (toBeArray v).length WordSize with hlt | hge
  · rw [if_neg (Nat.not_lt.mpr h), if_pos (Nat.ne_of_lt hlt)] at hok
    injection hok with hok
    rw [← hok, toBigInt_replicate_zero_append, toBigInt_toBeArray]
  · have heq : (toBeArray v).length = WordSize := Nat.le_antisymm h hge
    rw [if_neg (Nat.not_lt.mpr h), if_neg (fun hc => hc heq)] at hok
    injection hok with hok
    rw [← hok, toBigInt_toBeArray]

/-- C4: writing any value whose big-endian representation fits one word
with `writeValue` into a fresh `Writer`, then reading the materialized
buffer back with `readValue`, returns exactly that value. -/
theorem writeValue_readValue_roundtrip (v : Nat)
    (h : (toBeArray v).length ≤ WordSize) :
    ∃ w k, WriterS.empty.writeValue v = .ok (w, k)
      ∧ (ReaderS.mk w.bytes false 0).readValue
          = .ok (v, ⟨w.bytes, false, WordSize⟩) := by
  obtain ⟨bs, hok, hlen, hval⟩ := getValue_toBigInt v h
  refine ⟨⟨[bs], bs.length⟩, bs.length, ?_, ?_⟩
  · simp only [WriterS.writeValue, hok, writeData, WriterS.empty]
    simp
  · have hbytes : WriterS.bytes ⟨[bs], bs.length⟩ = bs := by
      simp [WriterS.bytes]
    have hcw : ceilWord WordSize = WordSize := by decide
    simp only [ReaderS.readValue, ReaderS.readBytes, ReaderS.peekBytes, hbytes, hcw]
    rw [if_neg (by omega)]
    simp only [List.drop_zero]
    rw [List.take_of_length_le (le_of_eq hlen), List.take_of_length_le (le_of_eq hlen)]
    simp [hval, hlen]

/-- Witness for C4 at the value 7. -/
theorem writeValue_readValue_roundtrip_witness :
    ∃ w k, WriterS.empty.writeValue 7 = .ok (w, k)
      ∧ (ReaderS.mk w.bytes false 0).readValue
          = .ok (7, ⟨w.bytes, false, WordSize⟩) :=
  writeValue_readValue_roundtrip 7 (by decide)

/-- Whether a slot holds a captured error. -/
def RValue.isErr : RValue → Bool
  | .err _ => true
  | _ => false

theorem two_le_countP_of_two_get {α : Type} (p : α → Bool) (l : List α)
    (i j : Nat) (hi : i < l.length) (hj : j < l.length) (hij : i < j)
    (hpi : p (l.get ⟨i, hi⟩) = true) (hpj : p (l.get ⟨j, hj⟩) = true) :
    2 ≤ l.countP p := by
  have hsplit : l = l.take j ++ l.drop j := (List.take_append_drop j l).symm
  have h1 : 0 < (l.take j).countP p := by
    refine List.countP_pos.mpr ⟨l.get ⟨i, hi⟩, ?_, hpi⟩
    have : (l.take j).get ⟨i, by rw [List.length_take]; omega⟩ = l.get ⟨i, hi⟩ := by
      simp [List.getElem_take]
    rw [← this]
    exact List.get_mem _ _ _
  have h2 : 0 < (l.drop j).countP p := by
    refine List.countP_pos.mpr ⟨l.get ⟨j, hj⟩, ?_, hpj⟩
    have : (l.drop j).get ⟨0, by rw [List.length_drop]; omega⟩ = l.get ⟨j, hj⟩ := by
      simp [List.getElem_drop]
    rw [← this]
    exact List.get_mem _ _ _
  calc 2 ≤ (l.take j).countP p + (l.drop j).countP p := by omega
    _ = l.countP p := by rw [← List.countP_append, ← hsplit]

theorem resultNames_no_dup_name (numItems : Nat) (keys : List (Option String))
    (name : String) (hc : nameCount keys name ≠ 1) :
    ∀ x ∈ resultNames numItems keys, x ≠ some name := by
  intro x hx
  simp only [resultNames, List.mem_map, List.mem_range] at hx
  obtain ⟨i, hi, hdef⟩ := hx
  intro hcontra
  subst hcontra
  rcases hk : keys.getD i none with _ | s
  · rw [hk] at hdef
    dsimp only at hdef
    exact Option.noConfusion hdef
  · rw [hk] at hdef
    dsimp only at hdef
    by_cases h1 : nameCount keys s = 1
    · rw [if_pos h1] at hdef
      injection hdef with hs
      exact hc (hs ▸ h1)
    · rw [if_neg h1] at hdef
      exact Option.noConfusion hdef

/-- C6: when the same non-null name is requested at two distinct indices,
the constructed Result disables name access for that name (`getValue`
returns `undefined`), while positional access to every non-error slot —
in particular both duplicated indices — still returns the stored value. -/
theorem duplicate_name_disables_name_access (items : List RValue)
    (keys : List (Option String)) (name : String) (i j : Nat)
    (hi : i < keys.length) (hj : j < keys.length) (hij : i < j)
    (hni : keys.get ⟨i, hi⟩ = some name) (hnj : keys.get ⟨j, hj⟩ = some name) :
    (ResultR.fromItems items keys).getValue name = .ok none
    ∧ ∀ k, ∀ hk : k < items.length, (items.get ⟨k, hk⟩).isErr = false →
        proxyIndexGet (ResultR.fromItems items keys) k = .ok (items.get ⟨k, hk⟩) := by
  have hcount : 2 ≤ nameCount keys name := by
    refine two_le_countP_of_two_get _ keys i j hi hj hij ?_ ?_
    · simpa using congrArg (fun o => o == some name) hni
    · simpa using congrArg (fun o => o == some name) hnj
  constructor
  · have hnone : (resultNames items.length keys).findIdx?
        (fun n => n == some name) = none := by
      rw [List.findIdx?_eq_none_iff]
      intro x hx
      have := resultNames_no_dup_name items.length keys name (by omega) x hx
      simpa using this
    simp only [ResultR.getValue, ResultR.fromItems, ResultR.names, hnone]
  · intro k hk hke
    have hk' : k < (ResultR.fromItems items keys).items.length := by
      simpa [ResultR.fromItems, ResultR.items] using hk
    simp only [proxyIndexGet, dif_pos hk']
    have hgeteq : (ResultR.fromItems items keys).items.get ⟨k, hk'⟩
        = items.get ⟨k, hk⟩ := by
      simp [ResultR.fromItems, ResultR.items]
    rw [hgeteq]
    rcases hval : items.get ⟨k, hk⟩ with n | e | r
    · rfl
    · rw [hval] at hke
      simp [RValue.isErr] at hke
    · rfl

/-- Witness for C6: duplicated name `x` at indices 0 and 1 over the items
`[1, 2]`: name access yields `undefined`, positional access still returns
both stored values. -/
theorem duplicate_name_disables_name_access_witness :
    (ResultR.fromItems [.atom 1, .atom 2] [some "x", some "x"]).getValue "x"
        = .ok none
      ∧ proxyIndexGet (ResultR.fromItems [.atom 1, .atom 2] [some "x", some "x"]) 0
        = .ok (.atom 1)
      ∧ proxyIndexGet (ResultR.fromItems [.atom 1, .atom 2] [some "x", some "x"]) 1
        = .ok (.atom 2) := by
  have h := duplicate_name_disables_name_access [.atom 1, .atom 2]
    [some "x", some "x"] "x" 0 1 (by decide) (by decide) (by decide) rfl rfl
  refine ⟨h.1, ?_, ?_⟩
  · simpa using h.2 0 (by decide) rfl
  · simpa using h.2 1 (by decide) rfl

theorem toBeArray_pow_length (k : Nat) : (toBeArray (256 ^ k)).length = k + 1 := by
  induction k with
  | zero =>
    rw [pow_zero, toBeArray_eq_nz 1 one_ne_zero]
    simp [toBeArray_zero]
  | succ n ihn =>
    have hnz : (256 : Nat) ^ (n + 1) ≠ 0 := by positivity
    rw [toBeArray_eq_nz _ hnz]
    have hdiv : (256 : Nat) ^ (n + 1) / 256 = 256 ^ n := by
      rw [pow_succ]
      exact Nat.mul_div_cancel _ (by norm_num)
    rw [hdiv, List.length_append, ihn]
    rfl

/-- C10: invoking the backpatch callback from `writeUpdatableValue` with a
value needing more than one word raises `BUFFER_OVERRUN` (from `getValue`,
evaluated before any assignment) and leaves the writer entirely unchanged:
the reserved chunk is still the zero-filled word and the total length is
the post-reserve length. -/
theorem patch_oversized_value_unchanged (w : WriterS) (v : Nat)
    (h : WordSize < (toBeArray v).length) :
    ((w.writeUpdatable.1.patch w.writeUpdatable.2 v).1
        = .error ⟨"value out-of-bounds", "BUFFER_OVERRUN", toBeArray v, WordSize,
                  (toBeArray v).length⟩)
    ∧ (w.writeUpdatable.1.patch w.writeUpdatable.2 v).2 = w.writeUpdatable.1
    ∧ w.writeUpdatable.1.data.getD w.writeUpdatable.2 []
        = List.replicate WordSize 0
    ∧ w.writeUpdatable.1.dataLength = w.dataLength + WordSize := by
  have hg : getValue v = .error ⟨"value out-of-bounds", "BUFFER_OVERRUN",
      toBeArray v, WordSize, (toBeArray v).length⟩ := by
    simp only [getValue]
    rw [if_pos h]
  refine ⟨?_, ?_, ?_, rfl⟩
  · simp [WriterS.patch, hg]
  · simp [WriterS.patch, hg]
  · simp only [WriterS.writeUpdatable]
    rw [List.getD_eq_getElem?_getD, List.getElem?_append_right (Nat.le_refl _)]
    simp

/-- Witness for C10 at the empty writer and the 33-byte value `256^32`. -/
theorem patch_oversized_value_unchanged_witness :
    ((WriterS.empty.writeUpdatable.1.patch WriterS.empty.writeUpdatable.2 (256 ^ 32)).1
        = .error ⟨"value out-of-bounds", "BUFFER_OVERRUN", toBeArray (256 ^ 32),
                  WordSize, (toBeArray (256 ^ 32)).length⟩)
    ∧ (WriterS.empty.writeUpdatable.1.patch WriterS.empty.writeUpdatable.2 (256 ^ 32)).2
        = WriterS.empty.writeUpdatable.1
    ∧ WriterS.empty.writeUpdatable.1.data.getD WriterS.empty.writeUpdatable.2 []
        = List.replicate WordSize 0
    ∧ WriterS.empty.writeUpdatable.1.dataLength
        = WriterS.empty.dataLength + WordSize := by
  refine patch_oversized_value_unchanged WriterS.empty (256 ^ 32) ?_
  rw [toBeArray_pow_length 32]
  decide

/-- The sum of the chunk lengths of a writer. -/
def chunkSum (w : WriterS) : Nat :=
  (w.data.map List.length).sum

theorem getD_set_self (l : List (List Nat)) (n : Nat) (a : List Nat)
    (h : n < l.length) : (l.set n a).getD n [] = a := by
  simp [List.getD_eq_getElem?_getD, List.getElem?_set_self, h]

theorem getD_set_ne (l : List (List Nat)) (n m : Nat) (a : List Nat)
    (h : n ≠ m) : (l.set n a).getD m [] = l.getD m [] := by
  simp [List.getD_eq_getElem?_getD, List.getElem?_set_ne h]

theorem getD_append_left (l l2 : List (List Nat)) (n : Nat)
    (h : n < l.length) : (l ++ l2).getD n [] = l.getD n [] := by
  simp [List.getD_eq_getElem?_getD, List.getElem?_append, h]

theorem map_length_sum_set (l : List (List Nat)) (n : Nat) (a : List Nat)
    (hn : n < l.length) (hlen : (l.getD n []).length = a.length) :
    ((l.set n a).map List.length).sum = (l.map List.length).sum := by
  induction l generalizing n with
  | nil => simp at hn
  | cons x xs ih =>
    cases n with
    | zero =>
      simp only [List.getD_cons_zero] at hlen
      simp [List.set, hlen]
    | succ m =>
      simp only [List.getD_cons_succ] at hlen
      simp only [List.set, List.map_cons, List.sum_cons]
      rw [ih m (by simpa using hn) hlen]

/-- The C7 invariant: the tracked length equals the chunk-length sum, and
every reserved slot is a live chunk index holding a one-word chunk. -/
def WInv (w : WriterS) (res : List Nat) : Prop :=
  w.dataLength = chunkSum w
  ∧ ∀ s ∈ res, s < w.data.length ∧ (w.data.getD s []).length = WordSize

theorem winv_writeData (w : WriterS) (res : List Nat) (bs : List Nat)
    (h : WInv w res) : WInv (writeData w bs).1 res := by
  obtain ⟨hlen, hres⟩ := h
  constructor
  · simp [writeData, chunkSum, hlen]
  · intro s hs
    obtain ⟨hs1, hs2⟩ := hres s hs
    refine ⟨by simp [writeData]; omega, ?_⟩
    simp only [writeData]
    rw [getD_append_left _ _ _ hs1]
    exact hs2

theorem winv_step (w : WriterS) (res : List Nat) (op : WOp)
    (hguard : (match op with
      | .opWriteValue v => decide ((toBeArray v).length ≤ WordSize)
      | .opPatch slot v =>
        decide (slot ∈ res) && decide ((toBeArray v).length ≤ WordSize)
      | _ => true) = true)
    (h : WInv w res) : WInv (stepW w op) (reservedAfter w res op) := by
  obtain ⟨hlen, hres⟩ := h
  cases op with
  | opWriteBytes bs =>
    simp only [stepW, reservedAfter, WriterS.writeBytes]
    exact winv_writeData w res _ ⟨hlen, hres⟩
  | opAppend bs =>
    simp only [stepW, reservedAfter]
    exact winv_writeData w res _ ⟨hlen, hres⟩
  | opWriteValue v =>
    simp only [decide_eq_true_eq] at hguard
    obtain ⟨bs, hok, hbl⟩ := getValue_ok_of_fits v hguard
    simp only [stepW, reservedAfter, WriterS.writeValue, hok]
    exact winv_writeData w res bs ⟨hlen, hres⟩
  | opReserve =>
    simp only [stepW, reservedAfter, WriterS.writeUpdatable]
    constructor
    · simp [chunkSum, hlen, WordSize]
    · intro s hs
      rcases List.mem_append.mp hs with hold | hnew
      · obtain ⟨hs1, hs2⟩ := hres s hold
        refine ⟨by simp; omega, ?_⟩
        rw [getD_append_left _ _ _ hs1]
        exact hs2
      · have hseq : s = w.data.length := by simpa using hnew
        subst hseq
        refine ⟨by simp, ?_⟩
        rw [List.getD_eq_getElem?_getD, List.getElem?_append_right (Nat.le_refl _)]
        simp
  | opPatch slot v =>
    simp only [Bool.and_eq_true, decide_eq_true_eq] at hguard
    obtain ⟨hmem, hfit⟩ := hguard
    obtain ⟨bs, hok, hbl⟩ := getValue_ok_of_fits v hfit
    obtain ⟨hs1, hs2⟩ := hres slot hmem
    simp only [stepW, reservedAfter, WriterS.patch, hok]
    constructor
    · simp only [chunkSum]
      rw [map_length_sum_set _ _ _ hs1 (by rw [hs2, hbl])]
      exact hlen
    · intro s hs
      obtain ⟨hs1', hs2'⟩ := hres s hs
      refine ⟨by simpa using hs1', ?_⟩
      by_cases hsl : slot = s
      · subst hsl
        rw [getD_set_self _ _ _ hs1, hbl]
      · rw [getD_set_ne _ _ _ _ hsl]
        exact hs2'

theorem winv_run (ops : List WOp) : ∀ (w : WriterS) (res : List Nat),
    WInv w res → wfFrom w res ops = true → ∃ res2, WInv (runW w ops) res2 := by
  induction ops with
  | nil =>
    intro w res h _
    exact ⟨res, h⟩
  | cons op rest ih =>
    intro w res h hwf
    simp only [wfFrom, Bool.and_eq_true] at hwf
    exact ih (stepW w op) (reservedAfter w res op)
      (winv_step w res op hwf.1 h) hwf.2

/-- C7: after any well-formed sequence of writer operations — the four
write operations and later backpatch-callback invocations with in-range
values — starting from a fresh writer, the tracked length equals the sum
of the chunk lengths, which is the byte length of the materialized data. -/
theorem writer_length_invariant (ops : List WOp)
    (hwf : wfFrom WriterS.empty [] ops = true) :
    (runW WriterS.empty ops).dataLength = chunkSum (runW WriterS.empty ops)
    ∧ (runW WriterS.empty ops).dataLength = (runW WriterS.empty ops).bytes.length := by
  have hinv0 : WInv WriterS.empty [] := by
    constructor
    · rfl
    · intro s hs
      simp at hs
  obtain ⟨res2, hfin⟩ := winv_run ops WriterS.empty [] hinv0 hwf
  refine ⟨hfin.1, ?_⟩
  rw [hfin.1]
  simp [chunkSum, WriterS.bytes, List.length_join]

/-- Witness for C7 on a trace exercising every operation: write 3 bytes,
reserve a word, write a one-word value, append 5 raw bytes, then backpatch
the reserved word. -/
theorem writer_length_invariant_witness :
    (runW WriterS.empty
        [.opWriteBytes [1, 2, 3], .opReserve, .opWriteValue 7,
         .opAppend [9, 9, 9, 9, 9], .opPatch 1 500]).dataLength
      = chunkSum (runW WriterS.empty
        [.opWriteBytes [1, 2, 3], .opReserve, .opWriteValue 7,
         .opAppend [9, 9, 9, 9, 9], .opPatch 1 500])
    ∧ (runW WriterS.empty
        [.opWriteBytes [1, 2, 3], .opReserve, .opWriteValue 7,
         .opAppend [9, 9, 9, 9, 9], .opPatch 1 500]).dataLength
      = (runW WriterS.empty
        [.opWriteBytes [1, 2, 3], .opReserve, .opWriteValue 7,
         .opAppend [9, 9, 9, 9, 9], .opPatch 1 500]).bytes.length :=
  writer_length_invariant
    [.opWriteBytes [1, 2, 3], .opReserve, .opWriteValue 7,
     .opAppend [9, 9, 9, 9, 9], .opPatch 1 500] (by decide)

/-- Whether a slot is a plain atomic value. -/
def RValue.isAtom : RValue → Bool
  | .atom _ => true
  | _ => false

theorem filterGo_first_err (p : RValue → Nat → Bool) (e : JsError)
    (bs : List RValue) :
    ∀ (as : List RValue) (names : List (Option String)) (k : Nat),
      (∀ v ∈ as, v.isErr = false) →
      filterGo p (as ++ .err e :: bs) names k
        = .error (throwErrorE ("index " ++ toString (k + as.length)) (some e)) := by
  intro as
  induction as with
  | nil =>
    intro names k _
    simp [filterGo]
  | cons a rest ih =>
    intro names k ha
    have hrest : ∀ v ∈ rest, v.isErr = false := fun v hv => ha v (by simp [hv])
    have hihk := ih names (k + 1) hrest
    have harith : k + 1 + rest.length = k + (rest.length + 1) := by omega
    rcases a with n | e2 | r
    · simp only [List.cons_append, filterGo, List.append_eq, Nat.succ_eq_add_one,
        hihk, harith, List.length_cons]
    · have : RValue.isErr (.err e2) = false := ha _ (by simp)
      simp [RValue.isErr] at this
    · simp only [List.cons_append, filterGo, List.append_eq, Nat.succ_eq_add_one,
        hihk, harith, List.length_cons]

/-- C8 counterexample: slicing a wrapped Result holding a captured error
produces a Result built through the `_guard` path, i.e. a wrapped
(frozen, proxied, deferred-error-bearing) Result — not the raw
(non-deferred-error-wrapping) Result the claim describes. -/
theorem slice_wrapped_counterexample :
    ((ResultR.fromItems [.err (.mk "boom" none), .atom 5] []).slice 0 2).wrapped
        ≠ false
      ∧ ((ResultR.fromItems [.err (.mk "boom" none), .atom 5] []).slice 0 2).wrapped
        = true := by
  decide

/-- C8 (amended): on a Result with a captured error at slot `i` (no error
before it), `filter` raises the deferred error when its scan reaches slot
`i`, whatever the predicate; `slice` over any in-range sub-range never
raises (it is total) and returns a wrapped Result preserving the range's
slot values and names. -/
theorem filter_raises_slice_preserves (as bs : List RValue) (e : JsError)
    (names : List (Option String)) (w : Bool)
    (ha : ∀ v ∈ as, v.isErr = false) :
    (∀ p, (ResultR.mk (as ++ .err e :: bs) names w).filter p
        = .error (throwErrorE ("index " ++ toString as.length) (some e)))
    ∧ ∀ start stop, stop ≤ (as ++ .err e :: bs).length →
        ((ResultR.mk (as ++ .err e :: bs) names w).slice start stop).items
            = (((as ++ .err e :: bs).drop start).take (stop - start))
          ∧ ((ResultR.mk (as ++ .err e :: bs) names w).slice start stop).names
            = ((names.drop start).take (stop - start))
          ∧ ((ResultR.mk (as ++ .err e :: bs) names w).slice start stop).wrapped
            = true := by
  constructor
  · intro p
    have h := filterGo_first_err p e bs as names 0 ha
    simp only [Nat.zero_add] at h
    simp only [ResultR.filter, ResultR.items, ResultR.names, h]
  · intro start stop _
    exact ⟨rfl, rfl, rfl⟩

/-- Witness for C8 (amended): error at slot 1 between two atoms; filter
with an always-false predicate still raises at slot 1, and the full slice
keeps items, names and wrapped-ness. -/
theorem filter_raises_slice_preserves_witness :
    ((ResultR.mk [.atom 1, .err (.mk "boom" none), .atom 3]
        [some "a", some "b", some "c"] true).filter (fun _ _ => false)
      = .error (throwErrorE "index 1" (some (.mk "boom" none))))
    ∧ ((ResultR.mk [.atom 1, .err (.mk "boom" none), .atom 3]
          [some "a", some "b", some "c"] true).slice 0 3).items
        = [.atom 1, .err (.mk "boom" none), .atom 3]
      ∧ ((ResultR.mk [.atom 1, .err (.mk "boom" none), .atom 3]
          [some "a", some "b", some "c"] true).slice 0 3).names
        = [some "a", some "b", some "c"]
      ∧ ((ResultR.mk [.atom 1, .err (.mk "boom" none), .atom 3]
          [some "a", some "b", some "c"] true).slice 0 3).wrapped = true := by
  have h := filter_raises_slice_preserves [.atom 1] [.atom 3] (.mk "boom" none)
    [some "a", some "b", some "c"] true (by decide)
  refine ⟨?_, ?_⟩
  · have := h.1 (fun _ _ => false)
    simpa using this
  · have := h.2 0 3 (by decide)
    simpa using this

mutual
theorem checkList_length_eq : ∀ (path : List String) (k : Nat) (w : Bool)
    (xs : List RValue), (checkList path k w xs).length = raiseCountList w xs
  | path, k, w, [] => by
    simp [checkList, raiseCountList]
  | path, k, w, item :: rest => by
    have hrest := checkList_length_eq path (k + 1) w rest
    rcases w with _ | _ <;> rcases item with n | e | r <;>
      simp [checkList, raiseCountList, checkVal_length_eq, hrest, Nat.add_comm]

theorem checkVal_length_eq : ∀ (path : List String) (v : RValue),
    (checkVal path v).length = raiseCountVal v
  | path, .atom n => by
    simp [checkVal, raiseCountVal]
  | path, .err e => by
    simp [checkVal, raiseCountVal]
  | path, .nested (.mk items names w) => by
    rw [checkVal, raiseCountVal]
    exact checkList_length_eq path 0 w items
end

theorem checkList_append_eq (path : List String) (w : Bool)
    (ys : List RValue) : ∀ (xs : List RValue) (k : Nat),
    checkList path k w (xs ++ ys)
      = checkList path k w xs ++ checkList path (k + xs.length) w ys := by
  intro xs
  induction xs with
  | nil =>
    intro k
    simp [checkList]
  | cons x rest ih =>
    intro k
    have harith : k + 1 + rest.length = k + (rest.length + 1) := by omega
    rcases w with _ | _ <;> rcases x with n | e | r <;>
      simp [checkList, ih (k + 1), List.append_assoc, harith]

theorem checkList_all_atoms (path : List String) (w : Bool) :
    ∀ (xs : List RValue) (k : Nat), (∀ v ∈ xs, v.isAtom = true) →
      checkList path k w xs = [] := by
  intro xs
  induction xs with
  | nil =>
    intro k _
    rw [checkList]
  | cons x rest ih =>
    intro k hx
    have hxa : x.isAtom = true := hx x (by simp)
    have hrest := ih (k + 1) (fun v hv => hx v (by simp [hv]))
    rcases x with n | e | r
    · rcases w with _ | _ <;> simp [checkList, checkVal, hrest]
    · simp [RValue.isAtom] at hxa
    · simp [RValue.isAtom] at hxa

/-- C9: `checkResultErrors` never throws (it is a total function); it
returns one entry per slot, recursively, whose access would raise; and on
a wrapped Result with exactly one captured-error slot (all other slots
plain values) it returns exactly one entry whose path identifies that
slot's index. -/
theorem checkResultErrors_diagnostic :
    (∀ r : ResultR, (checkResultErrors r).length = raiseCount r)
    ∧ ∀ (as bs : List RValue) (names : List (Option String)) (e : JsError),
        (∀ v ∈ as, v.isAtom = true) → (∀ v ∈ bs, v.isAtom = true) →
        checkResultErrors (.mk (as ++ .err e :: bs) names true)
          = [([toString as.length],
              throwErrorE ("index " ++ toString as.length) (some e))] := by
  constructor
  · intro r
    rcases r with ⟨items, names, w⟩
    rw [checkResultErrors, raiseCount]
    exact checkList_length_eq [] 0 _ items
  · intro as bs names e ha hb
    rw [checkResultErrors]
    show checkList [] 0 true (as ++ .err e :: bs) = _
    rw [checkList_append_eq [] true (.err e :: bs) as 0,
      checkList_all_atoms [] true as 0 ha, List.nil_append, checkList,
      checkList_all_atoms [] true bs (0 + as.length + 1) hb]
    simp

/-- Witness for C9: a Result nesting another Result with an error (for the
counting part), and the single-error shape `[1, err, 3]` (for the
exactly-one-entry part, path `["1"]`). -/
theorem checkResultErrors_diagnostic_witness :
    (checkResultErrors (.mk [.atom 1,
        .nested (.mk [.err (.mk "inner" none), .atom 2] [] true),
        .err (.mk "outer" none)] [] true)).length
      = raiseCount (.mk [.atom 1,
        .nested (.mk [.err (.mk "inner" none), .atom 2] [] true),
        .err (.mk "outer" none)] [] true)
    ∧ checkResultErrors (.mk [.atom 1, .err (.mk "boom" none), .atom 3] [] true)
      = [(["1"], throwErrorE "index 1" (some (.mk "boom" none)))] := by
  constructor
  · exact checkResultErrors_diagnostic.1 _
  · have := checkResultErrors_diagnostic.2 [.atom 1] [.atom 3] []
      (.mk "boom" none) (by decide) (by decide)
    simpa using this
